import Mathlib

/-!
Bit-scan primitives of `hphp/util/bitops.h`

A shallow embedding of `ffs64`, `fls64`, `bitset_find_first`,
`bitset_find_next` and `bitset_for_each_set`, followed by the properties
established for them.

Conventions of the embedding.

* A 64-bit register is a natural number below `2 ^ 64`; register
  arithmetic is reduced modulo `2 ^ 64` explicitly.
* The inline assembly of each build path is translated instruction by
  instruction, one `let` per instruction, in program order.
* `ffs64` / `fls64` write their position through a reference parameter;
  the embedding returns the pair `(retval, out)` and receives the previous
  content of the destination register as the argument `out`.
* Where an instruction reads a register differently according to its number
  (`addi` and `r0` on powerpc64), the register chosen by the compiler for the
  operand is an argument of the build path.
* A `std::bitset<N>` is the function giving its `N` flags.
-/

namespace HPHP

/-! ## Build paths -/

/-- The four preprocessor branches of `ffs64` and `fls64`.  The assembly of
the powerpc64 branch gives `out` the constraint `=r`, which lets the compiler
place it in any general register, `r0` included, and its last instruction
`addi` reads `r0` differently from the other registers; the argument of
`powerpc64` tells whether the compiler has placed `out` in `r0`. -/
inductive Arch where
  | x86_64
  | aarch64
  | powerpc64 (outInR0 : Bool)
  | portable
  deriving DecidableEq, Repr

/-! ## Register-level instruction semantics -/

/-- Two-complement negation of a 64-bit register (`neg`). -/
def neg64 (x : Nat) : Nat := (2 ^ 64 - x % 2 ^ 64) % 2 ^ 64

/-- Addition of an immediate to a 64-bit register (`adds`, and `addi` on a
register other than `r0`). -/
def add64 (x y : Nat) : Nat := (x + y) % 2 ^ 64

/-- The instruction `addi RT, RA, SI` of the Power ISA: the immediate is added
to the content of `RA`, except that register number 0 in the place of `RA`
stands for the value 0 and not for the content of `r0`.  The first argument
tells whether the register written for `RA` is `r0`; `ra` is its content. -/
def addi (raIsR0 : Bool) (ra si : Nat) : Nat :=
  add64 (if raIsR0 then 0 else ra) si

/-- The search loop of `bsf`: `temp` counts upwards until a set bit of `src`
is met.  The first argument bounds the number of iterations by the register
width. -/
def bsfScan (src : Nat) : Nat → Nat → Nat
  | 0, temp => temp
  | fuel + 1, temp => if src.testBit temp then temp else bsfScan src fuel (temp + 1)

/-- The instruction `bsfq src, dest`: the pair (ZF, dest).  With a zero source
ZF is set and the destination is architecturally undefined; it is modelled as
keeping its previous content `dest`. -/
def bsfq (src dest : Nat) : Bool × Nat :=
  if src = 0 then (true, dest) else (false, bsfScan src 64 0)

/-- The search loop of `bsr`: `temp` counts downwards until a set bit of `src`
is met. -/
def bsrScan (src : Nat) : Nat → Nat
  | 0 => 0
  | temp + 1 => if src.testBit (temp + 1) then temp + 1 else bsrScan src temp

/-- The instruction `bsrq src, dest`: the pair (ZF, dest), with the same
treatment of a zero source as `bsfq`. -/
def bsrq (src dest : Nat) : Bool × Nat :=
  if src = 0 then (true, dest) else (false, bsrScan src 63)

/-- Number of clear bits met when going down from bit `n - 1` to the first set
bit of `x`, `n` when there is none. -/
def clzScan (x : Nat) : Nat → Nat
  | 0 => 0
  | n + 1 => if x.testBit n then 0 else clzScan x n + 1

/-- Count of leading zeros of a 64-bit register (`clz` on aarch64, `cntlzd`
on powerpc64); 64 for a zero register. -/
def clz64 (x : Nat) : Nat := clzScan x 64

/-- Reversal of the low `n` bits of `x`. -/
def rbitN : Nat → Nat → Nat
  | 0, _ => 0
  | n + 1, x => (x % 2) * 2 ^ n + rbitN n (x / 2)

/-- The instruction `rbit` on a 64-bit register. -/
def rbit64 (x : Nat) : Nat := rbitN 64 x

/-! ## The folly helpers of the portable path -/

/-- Modelled from the spec: `folly::findFirstSet` is the helper called by the
portable path of `ffs64`; it is declared in `folly/Bits.h`, which is not part of
the sources at hand.  It is taken as documented upstream: the 1-based index of
the least significant set bit, and 0 when no bit is set. -/
def findFirstSet (v : Nat) : Nat :=
  if v = 0 then 0 else bsfScan v 64 0 + 1

/-- Modelled from the spec: `folly::findLastSet` is the helper called by the
portable path of `fls64`; it is declared in `folly/Bits.h`, which is not part of
the sources at hand.  It is taken as documented upstream: the 1-based index of
the most significant set bit, and 0 when no bit is set. -/
def findLastSet (v : Nat) : Nat :=
  if v = 0 then 0 else 64 - clz64 v

/-! ## `ffs64` -/

/-- The x86_64 branch of `ffs64`. -/
def ffs64_x86_64 (input out : Nat) : Bool × Nat :=
  let (zf, out) := bsfq input out          -- bsfq  %2, %1
  let retval := !zf                        -- setnz %0
  (retval, out)

/-- The aarch64 branch of `ffs64`. -/
def ffs64_aarch64 (input _out : Nat) : Bool × Nat :=
  let input := rbit64 input                -- rbit  %2, %2
  let out := clz64 input                   -- clz   %1, %2
  let ne := out != 64                      -- cmp   %1, #64
  let retval := ne                         -- cset  %0, NE
  (retval, out)

/-- The powerpc64 branch of `ffs64`.  The register of `retval` serves as a
temporary, as in the source.  `outInR0` tells whether the compiler has placed
the operand `%1` in `r0`, which its constraint `=r` allows; of the
instructions below only `addi` reads that register in the place `RA`. -/
def ffs64_powerpc64 (outInR0 : Bool) (input _out : Nat) : Bool × Nat :=
  let r0 := neg64 input                    -- neg    %0, %2
  let r0 := input &&& r0                   -- and    %0, %2, %0
  let out := clz64 r0                      -- cntlzd %1, %0
  let eq := out == 64                      -- cmpdi  %1, 64
  let r0 := 1                              -- li     %0, 1
  let r0 := if eq then 0 else r0           -- iseleq %0, 0, %0
  let out := neg64 out                     -- neg    %1, %1
  let out := addi outInR0 out 63           -- addi   %1, %1, 63
  (r0 != 0, out)

/-- The portable branch of `ffs64`:
`out = folly::findFirstSet(input); retval = input != 0;`. -/
def ffs64_portable (input _out : Nat) : Bool × Nat :=
  let out := findFirstSet input
  let retval := input != 0
  (retval, out)

/-- The function `ffs64` on build path `a`: the returned flag and the value
left in `out`. -/
def ffs64 (a : Arch) (input out : Nat) : Bool × Nat :=
  match a with
  | Arch.x86_64 => ffs64_x86_64 input out
  | Arch.aarch64 => ffs64_aarch64 input out
  | Arch.powerpc64 outInR0 => ffs64_powerpc64 outInR0 input out
  | Arch.portable => ffs64_portable input out

/-! ## `fls64` -/

/-- The x86_64 branch of `fls64`. -/
def fls64_x86_64 (input out : Nat) : Bool × Nat :=
  let (zf, out) := bsrq input out          -- bsrq  %2, %1
  let retval := !zf                        -- setnz %0
  (retval, out)

/-- The aarch64 branch of `fls64`.  The flag N set by `adds` is bit 63 of the
result, and the condition PL is its negation. -/
def fls64_aarch64 (input _out : Nat) : Bool × Nat :=
  let out := clz64 input                   -- clz   %1, %2
  let out := neg64 out                     -- neg   %1, %1
  let out := add64 out 63                  -- adds  %1, %1, #63
  let n := out.testBit 63
  let retval := !n                         -- cset  %0, PL
  (retval, out)

/-- The powerpc64 branch of `fls64`; `outInR0` is as in `ffs64_powerpc64`. -/
def fls64_powerpc64 (outInR0 : Bool) (input _out : Nat) : Bool × Nat :=
  let out := clz64 input                   -- cntlzd %1, %2
  let eq := out == 64                      -- cmpdi  %1, 64
  let r0 := 1                              -- li     %0, 1
  let r0 := if eq then 0 else r0           -- iseleq %0, 0, %0
  let out := neg64 out                     -- neg    %1, %1
  let out := addi outInR0 out 63           -- addi   %1, %1, 63
  (r0 != 0, out)

/-- The portable branch of `fls64`:
`out = folly::findLastSet(input) - 1; retval = input != 0;`.  The subtraction
is done on the `unsigned int` returned by folly, hence modulo `2 ^ 32`. -/
def fls64_portable (input _out : Nat) : Bool × Nat :=
  let out := (findLastSet input + 2 ^ 32 - 1) % 2 ^ 32
  let retval := input != 0
  (retval, out)

/-- The function `fls64` on build path `a`: the returned flag and the value
left in `out`. -/
def fls64 (a : Arch) (input out : Nat) : Bool × Nat :=
  match a with
  | Arch.x86_64 => fls64_x86_64 input out
  | Arch.aarch64 => fls64_aarch64 input out
  | Arch.powerpc64 outInR0 => fls64_powerpc64 outInR0 input out
  | Arch.portable => fls64_portable input out

/-! ## Bitsets -/

/-- A `std::bitset<N>`: its `N` flags, indexed `0 .. N - 1`. -/
abbrev Bitset (N : Nat) : Type := Fin N → Bool

/-- Reading of flag `i`; positions from `N` on hold no flag and read as clear. -/
def Bitset.test {N : Nat} (c : Bitset N) (i : Nat) : Bool :=
  if h : i < N then c ⟨i, h⟩ else false

/-- The bitset of size `N` whose set flags are the members of `l` below `N`. -/
def Bitset.ofList (N : Nat) (l : List Nat) : Bitset N :=
  fun i => l.contains i.val

/-- The two switches that select the code of the bitset functions: `gnu` is
`defined(__GNUC__) && !defined(__APPLE__)`, `debug` tells whether `assert` is
compiled in. -/
structure Build where
  gnu : Bool
  debug : Bool
  deriving DecidableEq, Repr

/-- The loop shared by the two fallback branches,
`for (size_t i = start; i < bitset.size(); ++i) { if (bitset[i]) return i; }`
followed by `return bitset.size();`.  The first argument is the loop variant
`bitset.size() - i`, on which the recursion is structural. -/
def linearScan {N : Nat} (c : Bitset N) : Nat → Nat → Nat
  | 0, _ => N
  | fuel + 1, i =>
    if h : i < N then
      if c ⟨i, h⟩ then i else linearScan c fuel (i + 1)
    else N

/-! ### The word-at-a-time scan of the GNU bitset -/

/-- The number whose bit `b`, for `b < n`, is `f b`. -/
def packBits (f : Nat → Bool) : Nat → Nat
  | 0 => 0
  | n + 1 => packBits f n + (if f n then 2 ^ n else 0)

/-- Modelled from the spec: the number of 64-bit words backing a bit
collection of size `N`; the GNU `std::bitset` is not part of this file. -/
def numWords (N : Nat) : Nat := (N + 63) / 64

/-- Modelled from the spec: word `k` of the words backing the collection; its
bit `b` is flag `64 * k + b`, and the bits past the size are clear. -/
def word {N : Nat} (c : Bitset N) (k : Nat) : Nat :=
  packBits (fun b => c.test (64 * k + b)) 64

/-- Modelled from the spec: position of the first set bit of a non-zero word
(the `find_first_set` applied to a word, `__builtin_ctzl` in the GNU
library). -/
def ctz64 (x : Nat) : Nat := bsfScan x 64 0

/-- Modelled from the spec: the scan of whole words from word `i` on, until a
non-zero word is found or all words are exhausted; the result is the position
of the first set bit of that word, or `N`.  The first argument is the loop
variant `numWords N - i`. -/
def wordScan {N : Nat} (c : Bitset N) : Nat → Nat → Nat
  | 0, _ => N
  | fuel + 1, i =>
    if i < numWords N then
      if word c i ≠ 0 then i * 64 + ctz64 (word c i) else wordScan c fuel (i + 1)
    else N

/-- Modelled from the spec: `_Find_first()` of the GNU `std::bitset`, the
word-at-a-time search for the first set flag, `N` when there is none. -/
def _Find_first {N : Nat} (c : Bitset N) : Nat :=
  wordScan c (numWords N) 0

/-- Modelled from the spec: `_Find_next(prev)` of the GNU `std::bitset`: the
word containing `prev + 1` is scanned with the bits below `prev + 1` masked
off, then the subsequent whole words are scanned. -/
def _Find_next {N : Nat} (c : Bitset N) (prev : Nat) : Nat :=
  let prev := (prev + 1) % 2 ^ 64
  if numWords N * 64 ≤ prev then N
  else
    let i := prev / 64
    let thisword := word c i &&& ((2 ^ 64 - 1) <<< (prev % 64)) % 2 ^ 64
    if thisword ≠ 0 then i * 64 + ctz64 thisword
    else wordScan c (numWords N - (i + 1)) (i + 1)

/-! ### The functions of the header -/

/-- The function `bitset_find_first`. -/
def bitset_find_first {N : Nat} (b : Build) (c : Bitset N) : Nat :=
  if b.gnu then _Find_first c
  else linearScan c N 0

/-- The function `bitset_find_next`.  A failed `assert(prev < bitset.size())`
aborts the call, which is the result `none`.  In the fallback branch `prev+1`
is computed on `size_t`, modulo `2 ^ 64`. -/
def bitset_find_next {N : Nat} (b : Build) (c : Bitset N) (prev : Nat) : Option Nat :=
  if b.debug && !decide (prev < N) then none
  else if b.gnu then some (_Find_next c prev)
  else
    let start := (prev + 1) % 2 ^ 64
    some (linearScan c (N - start) start)

/-- The index `r` is the first set flag of `c` at or after `s`, or `N` when
there is none. -/
def IsFirstFrom {N : Nat} (c : Bitset N) (s r : Nat) : Prop :=
  (∀ j, s ≤ j → j < r → c.test j = false) ∧ (r = N ∨ (s ≤ r ∧ c.test r = true))

/-- The content of a 64-bit register read as a signed integer. -/
def toSigned64 (x : Nat) : Int :=
  if x < 2 ^ 63 then (x : Int) else (x : Int) - 2 ^ 64

/-! ## Lemmas on the scans -/

theorem exists_testBit_lt {w n : Nat} (h0 : w ≠ 0) (hlt : w < 2 ^ n) :
    ∃ k, k < n ∧ w.testBit k = true := by
  obtain ⟨i, hi⟩ := Nat.ne_zero_implies_bit_true h0
  refine ⟨i, ?_, hi⟩
  by_contra hge
  have h1 : 2 ^ i ≤ w := Nat.testBit_implies_ge hi
  have h2 : 2 ^ n ≤ 2 ^ i := Nat.pow_le_pow_right (by decide) (Nat.le_of_not_lt hge)
  omega

theorem testBit_false_of_ge {w n j : Nat} (hlt : w < 2 ^ n) (hj : n ≤ j) :
    w.testBit j = false := by
  apply Nat.testBit_lt_two_pow
  exact Nat.lt_of_lt_of_le hlt (Nat.pow_le_pow_right (by decide) hj)

theorem bsfScan_spec (w : Nat) : ∀ (fuel temp : Nat),
    (∃ k, temp ≤ k ∧ k < temp + fuel ∧ w.testBit k = true) →
    (∀ j, j < temp → w.testBit j = false) →
    w.testBit (bsfScan w fuel temp) = true ∧
      (∀ j, j < bsfScan w fuel temp → w.testBit j = false) ∧
      bsfScan w fuel temp < temp + fuel := by
  intro fuel
  induction fuel with
  | zero =>
    intro temp h _
    obtain ⟨k, h1, h2, _⟩ := h
    omega
  | succ fuel ih =>
    intro temp h hlow
    obtain ⟨k, h1, h2, h3⟩ := h
    by_cases hb : w.testBit temp = true
    · simp only [bsfScan, hb, if_true]
      exact ⟨trivial, hlow, by omega⟩
    · have hb2 : w.testBit temp = false := by simpa using hb
      have hk : temp ≠ k := by
        intro e
        rw [e] at hb
        exact hb h3
      have hrec := ih (temp + 1) ⟨k, by omega, by omega, h3⟩ (fun j hj => by
        rcases Nat.lt_succ_iff_lt_or_eq.mp hj with h | h
        · exact hlow j h
        · rw [h]; exact hb2)
      have e : bsfScan w (fuel + 1) temp = bsfScan w fuel (temp + 1) := by
        simp [bsfScan, hb2]
      rw [e]
      exact ⟨hrec.1, hrec.2.1, by omega⟩

theorem bsrScan_spec (w : Nat) : ∀ (temp : Nat),
    (∃ k, k ≤ temp ∧ w.testBit k = true) →
    (∀ j, temp < j → w.testBit j = false) →
    w.testBit (bsrScan w temp) = true ∧
      (∀ j, bsrScan w temp < j → w.testBit j = false) ∧
      bsrScan w temp ≤ temp := by
  intro temp
  induction temp with
  | zero =>
    intro h hhigh
    obtain ⟨k, h1, h2⟩ := h
    have hk : k = 0 := by omega
    subst hk
    exact ⟨h2, hhigh, Nat.le_refl _⟩
  | succ temp ih =>
    intro h hhigh
    obtain ⟨k, h1, h2⟩ := h
    by_cases hb : w.testBit (temp + 1) = true
    · simp only [bsrScan, hb, if_true]
      exact ⟨trivial, hhigh, Nat.le_refl _⟩
    · have hb2 : w.testBit (temp + 1) = false := by simpa using hb
      have hk : k ≠ temp + 1 := by
        intro e
        rw [e] at h2
        exact hb h2
      have hrec := ih ⟨k, by omega, h2⟩ (fun j hj => by
        by_cases e : j = temp + 1
        · rw [e]; exact hb2
        · exact hhigh j (by omega))
      have e : bsrScan w (temp + 1) = bsrScan w temp := by
        simp [bsrScan, hb2]
      rw [e]
      exact ⟨hrec.1, hrec.2.1, by omega⟩

theorem clzScan_le (w : Nat) : ∀ n, clzScan w n ≤ n := by
  intro n
  induction n with
  | zero => simp [clzScan]
  | succ n ih =>
    by_cases hb : w.testBit n = true
    · simp [clzScan, hb]
    · have hb2 : w.testBit n = false := by simpa using hb
      have e0 : clzScan w (n + 1) = clzScan w n + 1 := by
        simp [clzScan, hb2]
      rw [e0]
      omega

theorem clzScan_spec (w : Nat) : ∀ (n : Nat),
    (∃ k, k < n ∧ w.testBit k = true) →
    (∀ j, n ≤ j → w.testBit j = false) →
    clzScan w n < n ∧ w.testBit (n - 1 - clzScan w n) = true ∧
      (∀ j, n - 1 - clzScan w n < j → w.testBit j = false) := by
  intro n
  induction n with
  | zero =>
    intro h _
    obtain ⟨k, h1, _⟩ := h
    omega
  | succ n ih =>
    intro h hhigh
    obtain ⟨k, h1, h2⟩ := h
    by_cases hb : w.testBit n = true
    · simp only [clzScan, hb, if_true]
      refine ⟨by omega, by simpa using hb, fun j hj => hhigh j (by omega)⟩
    · have hb2 : w.testBit n = false := by simpa using hb
      have hk : k ≠ n := by
        intro e
        rw [e] at h2
        exact hb h2
      have hrec := ih ⟨k, by omega, h2⟩ (fun j hj => by
        by_cases e : j = n
        · rw [e]; exact hb2
        · exact hhigh j (by omega))
      have e0 : clzScan w (n + 1) = clzScan w n + 1 := by
        simp [clzScan, hb2]
      have e : n + 1 - 1 - (clzScan w n + 1) = n - 1 - clzScan w n := by omega
      rw [e0, e]
      exact ⟨by omega, hrec.2.1, hrec.2.2⟩

theorem clzScan_zero (n : Nat) : clzScan 0 n = n := by
  induction n with
  | zero => rfl
  | succ n ih => simp [clzScan, ih]

theorem clz64_zero : clz64 0 = 64 := clzScan_zero 64

theorem clz64_le (w : Nat) : clz64 w ≤ 64 := clzScan_le w 64

theorem clz64_spec {w : Nat} (h0 : w ≠ 0) (hlt : w < 2 ^ 64) :
    clz64 w < 64 ∧ w.testBit (63 - clz64 w) = true ∧
      (∀ j, 63 - clz64 w < j → w.testBit j = false) := by
  have h := clzScan_spec w 64 (exists_testBit_lt h0 hlt)
    (fun j hj => testBit_false_of_ge hlt hj)
  exact h

theorem bsfScan64_spec {w : Nat} (h0 : w ≠ 0) (hlt : w < 2 ^ 64) :
    bsfScan w 64 0 < 64 ∧ w.testBit (bsfScan w 64 0) = true ∧
      (∀ j, j < bsfScan w 64 0 → w.testBit j = false) := by
  obtain ⟨k, hk, hb⟩ := exists_testBit_lt h0 hlt
  have h := bsfScan_spec w 64 0 ⟨k, Nat.zero_le _, by omega, hb⟩
    (fun j hj => absurd hj (Nat.not_lt_zero j))
  exact ⟨by omega, h.1, h.2.1⟩

theorem bsrScan63_spec {w : Nat} (h0 : w ≠ 0) (hlt : w < 2 ^ 64) :
    bsrScan w 63 < 64 ∧ w.testBit (bsrScan w 63) = true ∧
      (∀ j, bsrScan w 63 < j → w.testBit j = false) := by
  obtain ⟨k, hk, hb⟩ := exists_testBit_lt h0 hlt
  have h := bsrScan_spec w 63 ⟨k, by omega, hb⟩
    (fun j hj => testBit_false_of_ge hlt (by omega))
  exact ⟨by omega, h.1, h.2.1⟩

/-- Two positions that are both the lowest set bit of a word coincide. -/
theorem lowest_unique {w p q : Nat}
    (hp : w.testBit p = true) (hpl : ∀ j, j < p → w.testBit j = false)
    (hq : w.testBit q = true) (hql : ∀ j, j < q → w.testBit j = false) : p = q := by
  rcases Nat.lt_trichotomy p q with h | h | h
  · have := hql p h
    rw [hp] at this
    cases this
  · exact h
  · have := hpl q h
    rw [hq] at this
    cases this

/-- Two positions that are both the highest set bit of a word coincide. -/
theorem highest_unique {w p q : Nat}
    (hp : w.testBit p = true) (hph : ∀ j, p < j → w.testBit j = false)
    (hq : w.testBit q = true) (hqh : ∀ j, q < j → w.testBit j = false) : p = q := by
  rcases Nat.lt_trichotomy p q with h | h | h
  · have := hph q h
    rw [hq] at this
    cases this
  · exact h
  · have := hqh p h
    rw [hp] at this
    cases this

/-! ## Lemmas on the register operations -/

theorem rbitN_lt : ∀ (n x : Nat), rbitN n x < 2 ^ n := by
  intro n
  induction n with
  | zero => intro x; simp [rbitN]
  | succ n ih =>
    intro x
    have h1 := ih (x / 2)
    have h2 : x % 2 < 2 := Nat.mod_lt _ (by decide)
    have h3 : x % 2 * 2 ^ n ≤ 1 * 2 ^ n := Nat.mul_le_mul_right _ (by omega)
    simp only [rbitN]
    rw [Nat.pow_succ]
    omega

theorem testBit_rbitN : ∀ (n x j : Nat),
    (rbitN n x).testBit j = (decide (j < n) && x.testBit (n - 1 - j)) := by
  intro n
  induction n with
  | zero => intro x j; simp [rbitN]
  | succ n ih =>
    intro x j
    have e : rbitN (n + 1) x = 2 ^ n * (x % 2) + rbitN n (x / 2) := by
      simp only [rbitN]
      rw [Nat.mul_comm]
    rw [e, Nat.testBit_mul_pow_two_add (x % 2) (rbitN_lt n (x / 2)) j]
    by_cases h1 : j < n
    · have h2 : j < n + 1 := by omega
      have h3 : n + 1 - 1 - j = (n - 1 - j) + 1 := by omega
      rw [if_pos h1, ih, h3, Nat.testBit_add_one]
      simp [h1, h2]
    · rw [if_neg h1]
      by_cases h2 : j = n
      · subst h2
        simp [Nat.testBit_zero]
      · have h3 : ¬ j < n + 1 := by omega
        have h4 : x % 2 < 2 ^ (j - n) := by
          have h5 : x % 2 < 2 := Nat.mod_lt _ (by decide)
          have h6 : 2 ^ 1 ≤ 2 ^ (j - n) := Nat.pow_le_pow_right (by decide) (by omega)
          omega
        rw [Nat.testBit_lt_two_pow h4]
        simp [h3]

theorem testBit_rbit64 (x j : Nat) :
    (rbit64 x).testBit j = (decide (j < 64) && x.testBit (63 - j)) :=
  testBit_rbitN 64 x j

theorem rbit64_lt (x : Nat) : rbit64 x < 2 ^ 64 := rbitN_lt 64 x

theorem add64_neg64 {c : Nat} (hc : c < 64) : add64 (neg64 c) 63 = 63 - c := by
  unfold add64 neg64
  omega

theorem add64_neg64_64 : add64 (neg64 64) 63 = 2 ^ 64 - 1 := by
  decide

theorem mod_two_pow_succ_of_lowest {w k : Nat} (hk : w.testBit k = true)
    (hl : ∀ j, j < k → w.testBit j = false) : w % 2 ^ (k + 1) = 2 ^ k := by
  apply Nat.eq_of_testBit_eq
  intro i
  rw [Nat.testBit_mod_two_pow, Nat.testBit_two_pow]
  by_cases h1 : i < k
  · have h2 : ¬ k = i := by omega
    simp [hl i h1, h2]
  · by_cases h2 : k = i
    · subst h2
      simp [hk]
    · have h3 : ¬ i < k + 1 := by omega
      simp [h2, h3]

theorem testBit_pred_of_lowest {w k : Nat} (hk : w.testBit k = true)
    (hl : ∀ j, j < k → w.testBit j = false) (j : Nat) :
    (w - 1).testBit j = if j < k then true else if j = k then false else w.testBit j := by
  have hmod := mod_two_pow_succ_of_lowest hk hl
  have hw : w = 2 ^ (k + 1) * (w / 2 ^ (k + 1)) + 2 ^ k := by
    have := Nat.div_add_mod w (2 ^ (k + 1))
    rw [hmod] at this
    exact this.symm
  have hpos : 0 < 2 ^ k := Nat.two_pow_pos k
  have hlt1 : 2 ^ k - 1 < 2 ^ (k + 1) := by
    rw [Nat.pow_succ]; omega
  have hlt2 : 2 ^ k < 2 ^ (k + 1) := by
    rw [Nat.pow_succ]; omega
  have hw1 : w - 1 = 2 ^ (k + 1) * (w / 2 ^ (k + 1)) + (2 ^ k - 1) := by omega
  have e1 := Nat.testBit_mul_pow_two_add (w / 2 ^ (k + 1)) hlt1 j
  have e2 := Nat.testBit_mul_pow_two_add (w / 2 ^ (k + 1)) hlt2 j
  rw [← hw1] at e1
  rw [← hw] at e2
  rw [e1]
  by_cases h1 : j < k
  · have h2 : j < k + 1 := by omega
    simp [h1, h2]
  · by_cases h2 : j = k
    · subst h2
      simp
    · have h3 : ¬ j < k + 1 := by omega
      rw [if_neg h3, if_neg h1, if_neg h2, e2, if_neg h3]

/-- The conjunction of a register with its two-complement negation keeps only
the lowest set bit. -/
theorem land_neg64_of_lowest {w k : Nat} (hlt : w < 2 ^ 64) (hk : w.testBit k = true)
    (hl : ∀ j, j < k → w.testBit j = false) : w &&& neg64 w = 2 ^ k := by
  have h0 : w ≠ 0 := by
    intro e
    rw [e] at hk
    simp at hk
  have hk64 : k < 64 := by
    by_contra h
    have := testBit_false_of_ge hlt (Nat.le_of_not_lt h)
    rw [hk] at this
    cases this
  have hneg : neg64 w = 2 ^ 64 - (w - 1 + 1) := by
    unfold neg64
    omega
  have hlt1 : w - 1 < 2 ^ 64 := by omega
  apply Nat.eq_of_testBit_eq
  intro i
  rw [Nat.testBit_and, hneg, Nat.testBit_two_pow_sub_succ hlt1, testBit_pred_of_lowest hk hl,
    Nat.testBit_two_pow]
  by_cases h1 : i < k
  · have h2 : ¬ k = i := by omega
    simp [hl i h1, h2]
  · by_cases h2 : i = k
    · subst h2
      simp [hk, hk64]
    · have h3 : ¬ k = i := fun e => h2 e.symm
      rw [if_neg h1, if_neg h2]
      cases w.testBit i <;> simp [h3]

theorem clz64_two_pow {k : Nat} (hk : k < 64) : clz64 (2 ^ k) = 63 - k := by
  have hlt : 2 ^ k < 2 ^ 64 := Nat.pow_lt_pow_right (by decide) hk
  have h0 : 2 ^ k ≠ 0 := Nat.ne_of_gt (Nat.two_pow_pos k)
  obtain ⟨h1, h2, _⟩ := clz64_spec h0 hlt
  rw [Nat.testBit_two_pow] at h2
  have h3 : k = 63 - clz64 (2 ^ k) := by simpa using h2
  omega

/-! ## The branches of `ffs64` and `fls64` on a non-zero word -/

theorem ffs64_x86_64_eq {w : Nat} (h0 : w ≠ 0) (out : Nat) :
    ffs64_x86_64 w out = (true, bsfScan w 64 0) := by
  simp [ffs64_x86_64, bsfq, h0]

theorem rbit64_ne_zero {w : Nat} (h0 : w ≠ 0) (hlt : w < 2 ^ 64) : rbit64 w ≠ 0 := by
  obtain ⟨k, hk, hb⟩ := exists_testBit_lt h0 hlt
  intro e
  have h := testBit_rbit64 w (63 - k)
  have e2 : 63 - (63 - k) = k := by omega
  have e3 : 63 - k < 64 := by omega
  rw [e, e2, hb] at h
  simp [e3] at h

theorem clz64_rbit64 {w : Nat} (h0 : w ≠ 0) (hlt : w < 2 ^ 64) :
    clz64 (rbit64 w) = bsfScan w 64 0 := by
  obtain ⟨c1, c2, c3⟩ := clz64_spec (rbit64_ne_zero h0 hlt) (rbit64_lt w)
  obtain ⟨_, b2, b3⟩ := bsfScan64_spec h0 hlt
  rw [testBit_rbit64] at c2
  have e1 : 63 - (63 - clz64 (rbit64 w)) = clz64 (rbit64 w) := by omega
  rw [e1] at c2
  have c2b : w.testBit (clz64 (rbit64 w)) = true := by
    simp at c2
    exact c2.2
  refine lowest_unique c2b ?_ b2 b3
  intro j hj
  have h := c3 (63 - j) (by omega)
  rw [testBit_rbit64] at h
  have e2 : 63 - (63 - j) = j := by omega
  have e3 : 63 - j < 64 := by omega
  rw [e2] at h
  simpa [e3] using h

theorem ffs64_aarch64_eq {w : Nat} (h0 : w ≠ 0) (hlt : w < 2 ^ 64) (out : Nat) :
    ffs64_aarch64 w out = (true, bsfScan w 64 0) := by
  have hlt64 := (bsfScan64_spec h0 hlt).1
  simp only [ffs64_aarch64, clz64_rbit64 h0 hlt]
  have : bsfScan w 64 0 ≠ 64 := by omega
  simp [this]

theorem addi_r0 (ra si : Nat) : addi true ra si = add64 0 si := rfl

theorem addi_not_r0 (ra si : Nat) : addi false ra si = add64 ra si := rfl

theorem ffs64_powerpc64_eq {w : Nat} (h0 : w ≠ 0) (hlt : w < 2 ^ 64) (out : Nat) :
    ffs64_powerpc64 false w out = (true, bsfScan w 64 0) := by
  obtain ⟨b1, b2, b3⟩ := bsfScan64_spec h0 hlt
  have hclz : clz64 (w &&& neg64 w) = 63 - bsfScan w 64 0 := by
    rw [land_neg64_of_lowest hlt b2 b3, clz64_two_pow b1]
  have hlt2 : 63 - bsfScan w 64 0 < 64 := by omega
  have hne : ¬ (63 - bsfScan w 64 0 = 64) := by omega
  have hout : add64 (neg64 (63 - bsfScan w 64 0)) 63 = bsfScan w 64 0 := by
    rw [add64_neg64 hlt2]
    omega
  simp only [ffs64_powerpc64, addi_not_r0, hclz, hout]
  simp [hne]

/-- With `out` in `r0` the powerpc64 branch of `ffs64` writes 63 whatever the
non-zero word. -/
theorem ffs64_powerpc64_r0_eq {w : Nat} (h0 : w ≠ 0) (hlt : w < 2 ^ 64) (out : Nat) :
    ffs64_powerpc64 true w out = (true, 63) := by
  obtain ⟨b1, b2, b3⟩ := bsfScan64_spec h0 hlt
  have hclz : clz64 (w &&& neg64 w) = 63 - bsfScan w 64 0 := by
    rw [land_neg64_of_lowest hlt b2 b3, clz64_two_pow b1]
  have hne : ¬ (63 - bsfScan w 64 0 = 64) := by omega
  have hout : add64 0 63 = 63 := by decide
  simp only [ffs64_powerpc64, addi_r0, hclz, hout]
  simp [hne]

theorem ffs64_portable_eq {w : Nat} (h0 : w ≠ 0) (out : Nat) :
    ffs64_portable w out = (true, bsfScan w 64 0 + 1) := by
  simp [ffs64_portable, findFirstSet, h0]

theorem fls64_x86_64_eq {w : Nat} (h0 : w ≠ 0) (out : Nat) :
    fls64_x86_64 w out = (true, bsrScan w 63) := by
  simp [fls64_x86_64, bsrq, h0]

theorem clz64_eq_bsrScan {w : Nat} (h0 : w ≠ 0) (hlt : w < 2 ^ 64) :
    63 - clz64 w = bsrScan w 63 := by
  obtain ⟨_, c2, c3⟩ := clz64_spec h0 hlt
  obtain ⟨_, b2, b3⟩ := bsrScan63_spec h0 hlt
  exact highest_unique c2 c3 b2 b3

theorem fls64_aarch64_eq {w : Nat} (h0 : w ≠ 0) (hlt : w < 2 ^ 64) (out : Nat) :
    fls64_aarch64 w out = (true, bsrScan w 63) := by
  have c1 := (clz64_spec h0 hlt).1
  have b1 := (bsrScan63_spec h0 hlt).1
  have hout : add64 (neg64 (clz64 w)) 63 = bsrScan w 63 := by
    rw [add64_neg64 c1, clz64_eq_bsrScan h0 hlt]
  have hbit : (bsrScan w 63).testBit 63 = false := by
    apply Nat.testBit_lt_two_pow
    have : (64 : Nat) ≤ 2 ^ 63 := by decide
    omega
  simp only [fls64_aarch64, hout, hbit]
  rfl

theorem fls64_powerpc64_eq {w : Nat} (h0 : w ≠ 0) (hlt : w < 2 ^ 64) (out : Nat) :
    fls64_powerpc64 false w out = (true, bsrScan w 63) := by
  have c1 := (clz64_spec h0 hlt).1
  have hout : add64 (neg64 (clz64 w)) 63 = bsrScan w 63 := by
    rw [add64_neg64 c1, clz64_eq_bsrScan h0 hlt]
  have hne : ¬ (clz64 w = 64) := by omega
  simp only [fls64_powerpc64, addi_not_r0, hout]
  simp [hne]

/-- With `out` in `r0` the powerpc64 branch of `fls64` writes 63 whatever the
non-zero word. -/
theorem fls64_powerpc64_r0_eq {w : Nat} (h0 : w ≠ 0) (hlt : w < 2 ^ 64) (out : Nat) :
    fls64_powerpc64 true w out = (true, 63) := by
  have c1 := (clz64_spec h0 hlt).1
  have hne : ¬ (clz64 w = 64) := by omega
  have hout : add64 0 63 = 63 := by decide
  simp only [fls64_powerpc64, addi_r0, hout]
  simp [hne]

theorem fls64_portable_eq {w : Nat} (h0 : w ≠ 0) (hlt : w < 2 ^ 64) (out : Nat) :
    fls64_portable w out = (true, bsrScan w 63) := by
  have c1 := (clz64_spec h0 hlt).1
  have e := clz64_eq_bsrScan h0 hlt
  have hout : (64 - clz64 w + 2 ^ 32 - 1) % 2 ^ 32 = bsrScan w 63 := by
    omega
  simp only [fls64_portable, findLastSet, if_neg h0, hout]
  simp [h0]

/-- On a non-zero word the three assembly branches of `ffs64`, that of
powerpc64 with `out` outside `r0`, all report success and the position found by
the upward scan. -/
theorem ffs64_asm_eq {a : Arch} (ha : a ≠ Arch.portable) (hr : a ≠ Arch.powerpc64 true)
    {w : Nat} (h0 : w ≠ 0) (hlt : w < 2 ^ 64) (out : Nat) :
    ffs64 a w out = (true, bsfScan w 64 0) := by
  cases a with
  | x86_64 => exact ffs64_x86_64_eq h0 out
  | aarch64 => exact ffs64_aarch64_eq h0 hlt out
  | powerpc64 r =>
    cases r with
    | false => exact ffs64_powerpc64_eq h0 hlt out
    | true => exact absurd rfl hr
  | portable => exact absurd rfl ha

/-- On a non-zero word every branch of `fls64`, that of powerpc64 with `out`
outside `r0`, reports success and the position found by the downward scan. -/
theorem fls64_eq (a : Arch) (hr : a ≠ Arch.powerpc64 true) {w : Nat} (h0 : w ≠ 0)
    (hlt : w < 2 ^ 64) (out : Nat) :
    fls64 a w out = (true, bsrScan w 63) := by
  cases a with
  | x86_64 => exact fls64_x86_64_eq h0 out
  | aarch64 => exact fls64_aarch64_eq h0 hlt out
  | powerpc64 r =>
    cases r with
    | false => exact fls64_powerpc64_eq h0 hlt out
    | true => exact absurd rfl hr
  | portable => exact fls64_portable_eq h0 hlt out

/-- On the zero word every branch of `ffs64` reports failure. -/
theorem ffs64_zero_flag (a : Arch) (out : Nat) : (ffs64 a 0 out).1 = false := by
  cases a with
  | x86_64 => simp [ffs64, ffs64_x86_64, bsfq]
  | aarch64 => rfl
  | powerpc64 r => cases r <;> rfl
  | portable => simp [ffs64, ffs64_portable]

/-- On the zero word every branch of `fls64` reports failure. -/
theorem fls64_zero_flag (a : Arch) (out : Nat) : (fls64 a 0 out).1 = false := by
  cases a with
  | x86_64 => simp [fls64, fls64_x86_64, bsrq]
  | aarch64 => rfl
  | powerpc64 r => cases r <;> rfl
  | portable => simp [fls64, fls64_portable]

/-- On a non-zero word every branch of `ffs64` reports success. -/
theorem ffs64_flag (a : Arch) {w : Nat} (h0 : w ≠ 0) (hlt : w < 2 ^ 64) (out : Nat) :
    (ffs64 a w out).1 = true := by
  cases a with
  | x86_64 => rw [ffs64_asm_eq (by decide) (by decide) h0 hlt]
  | aarch64 => rw [ffs64_asm_eq (by decide) (by decide) h0 hlt]
  | powerpc64 r =>
    cases r with
    | false => rw [ffs64_asm_eq (by decide) (by decide) h0 hlt]
    | true =>
      show (ffs64_powerpc64 true w out).1 = true
      rw [ffs64_powerpc64_r0_eq h0 hlt]
  | portable => simp [ffs64, ffs64_portable, h0]

/-- On a non-zero word every branch of `fls64` reports success. -/
theorem fls64_flag (a : Arch) {w : Nat} (h0 : w ≠ 0) (hlt : w < 2 ^ 64) (out : Nat) :
    (fls64 a w out).1 = true := by
  by_cases hr : a = Arch.powerpc64 true
  · subst hr
    show (fls64_powerpc64 true w out).1 = true
    rw [fls64_powerpc64_r0_eq h0 hlt]
  · rw [fls64_eq a hr h0 hlt]

/-! ## Lemmas on the bitset scans -/

theorem Bitset.test_lt {N : Nat} {c : Bitset N} {i : Nat} (h : c.test i = true) : i < N := by
  by_contra hn
  simp [Bitset.test, hn] at h

theorem Bitset.test_of_ge {N : Nat} (c : Bitset N) {i : Nat} (h : N ≤ i) :
    c.test i = false := by
  have hn : ¬ i < N := by omega
  simp [Bitset.test, hn]

theorem Bitset.test_eq {N : Nat} (c : Bitset N) {i : Nat} (h : i < N) :
    c.test i = c ⟨i, h⟩ := by
  simp [Bitset.test, h]

theorem IsFirstFrom.unique {N : Nat} {c : Bitset N} {s r1 r2 : Nat}
    (h1 : IsFirstFrom c s r1) (h2 : IsFirstFrom c s r2) : r1 = r2 := by
  obtain ⟨a1, b1⟩ := h1
  obtain ⟨a2, b2⟩ := h2
  rcases Nat.lt_trichotomy r1 r2 with h | h | h
  · exfalso
    rcases b1 with e | ⟨hs, ht⟩
    · rcases b2 with e2 | ⟨_, ht2⟩
      · omega
      · have := Bitset.test_lt ht2
        omega
    · have := a2 r1 hs h
      rw [ht] at this
      cases this
  · exact h
  · exfalso
    rcases b2 with e | ⟨hs, ht⟩
    · rcases b1 with e1 | ⟨_, ht1⟩
      · omega
      · have := Bitset.test_lt ht1
        omega
    · have := a1 r2 hs h
      rw [ht] at this
      cases this

theorem IsFirstFrom.of_ge {N : Nat} (c : Bitset N) {s : Nat} (h : N ≤ s) :
    IsFirstFrom c s N :=
  ⟨fun j hj _ => c.test_of_ge (by omega), Or.inl rfl⟩

theorem IsFirstFrom.extend {N : Nat} {c : Bitset N} {s s2 r : Nat} (hs : s ≤ s2)
    (hclear : ∀ j, s ≤ j → j < s2 → c.test j = false) (h : IsFirstFrom c s2 r) :
    IsFirstFrom c s r := by
  obtain ⟨a, b⟩ := h
  refine ⟨fun j hj hr => ?_, ?_⟩
  · by_cases hlt : j < s2
    · exact hclear j hj hlt
    · exact a j (by omega) hr
  · rcases b with e | ⟨h1, h2⟩
    · exact Or.inl e
    · exact Or.inr ⟨by omega, h2⟩

theorem IsFirstFrom.le {N : Nat} {c : Bitset N} {s r : Nat} (h : IsFirstFrom c s r) :
    r ≤ N := by
  rcases h.2 with e | ⟨_, ht⟩
  · omega
  · exact Nat.le_of_lt (Bitset.test_lt ht)

theorem linearScan_spec {N : Nat} (c : Bitset N) : ∀ (fuel i : Nat), N - i ≤ fuel →
    IsFirstFrom c i (linearScan c fuel i) := by
  intro fuel
  induction fuel with
  | zero =>
    intro i h
    exact IsFirstFrom.of_ge c (by omega)
  | succ fuel ih =>
    intro i h
    by_cases hi : i < N
    · by_cases hb : c ⟨i, hi⟩ = true
      · have e : linearScan c (fuel + 1) i = i := by
          simp [linearScan, hi, hb]
        rw [e]
        refine ⟨fun j h1 h2 => by omega, Or.inr ⟨Nat.le_refl _, ?_⟩⟩
        rw [c.test_eq hi]
        exact hb
      · have hb2 : c ⟨i, hi⟩ = false := by simpa using hb
        have e : linearScan c (fuel + 1) i = linearScan c fuel (i + 1) := by
          simp [linearScan, hi, hb2]
        rw [e]
        refine IsFirstFrom.extend (Nat.le_succ i) (fun j h1 h2 => ?_) (ih (i + 1) (by omega))
        have ej : j = i := by omega
        rw [ej, c.test_eq hi]
        exact hb2
    · have e : linearScan c (fuel + 1) i = N := by
        simp [linearScan, hi]
      rw [e]
      exact IsFirstFrom.of_ge c (by omega)

theorem packBits_lt (f : Nat → Bool) : ∀ n, packBits f n < 2 ^ n := by
  intro n
  induction n with
  | zero => simp [packBits]
  | succ n ih =>
    simp only [packBits]
    rw [Nat.pow_succ]
    split <;> omega

theorem testBit_packBits (f : Nat → Bool) : ∀ (n j : Nat),
    (packBits f n).testBit j = (decide (j < n) && f j) := by
  intro n
  induction n with
  | zero => intro j; simp [packBits]
  | succ n ih =>
    intro j
    by_cases hf : f n = true
    · have e : packBits f (n + 1) = 2 ^ n * 1 + packBits f n := by
        simp only [packBits, hf, if_true]
        omega
      rw [e, Nat.testBit_mul_pow_two_add 1 (packBits_lt f n) j]
      by_cases h1 : j < n
      · have h2 : j < n + 1 := by omega
        rw [if_pos h1, ih]
        simp [h1, h2]
      · rw [if_neg h1]
        by_cases h2 : j = n
        · subst h2
          simp [hf]
        · have h3 : ¬ j < n + 1 := by omega
          have h4 : 1 < 2 ^ (j - n) := by
            have h6 : 2 ^ 1 ≤ 2 ^ (j - n) := Nat.pow_le_pow_right (by decide) (by omega)
            omega
          rw [Nat.testBit_lt_two_pow h4]
          simp [h3]
    · have hf2 : f n = false := by simpa using hf
      have e : packBits f (n + 1) = packBits f n := by
        simp [packBits, hf2]
      rw [e, ih]
      by_cases h2 : j = n
      · subst h2
        simp [hf2]
      · by_cases h1 : j < n
        · have h3 : j < n + 1 := by omega
          simp [h1, h3]
        · have h3 : ¬ j < n + 1 := by omega
          simp [h1, h3]

theorem word_lt {N : Nat} (c : Bitset N) (k : Nat) : word c k < 2 ^ 64 :=
  packBits_lt _ 64

theorem testBit_word {N : Nat} (c : Bitset N) (k b : Nat) :
    (word c k).testBit b = (decide (b < 64) && c.test (64 * k + b)) :=
  testBit_packBits _ 64 b

theorem word_eq_zero {N : Nat} {c : Bitset N} {k : Nat} (h : word c k = 0) (b : Nat)
    (hb : b < 64) : c.test (64 * k + b) = false := by
  have e := testBit_word c k b
  rw [h] at e
  simpa [hb] using e.symm

theorem numWords_mul_ge (N : Nat) : N ≤ numWords N * 64 := by
  unfold numWords
  omega

theorem wordScan_spec {N : Nat} (c : Bitset N) : ∀ (fuel i : Nat), numWords N - i ≤ fuel →
    IsFirstFrom c (64 * i) (wordScan c fuel i) := by
  intro fuel
  induction fuel with
  | zero =>
    intro i h
    have := numWords_mul_ge N
    exact IsFirstFrom.of_ge c (by omega)
  | succ fuel ih =>
    intro i h
    by_cases hi : i < numWords N
    · by_cases hw : word c i = 0
      · have e : wordScan c (fuel + 1) i = wordScan c fuel (i + 1) := by
          simp [wordScan, hi, hw]
        rw [e]
        refine IsFirstFrom.extend (by omega) (fun j h1 h2 => ?_) (ih (i + 1) (by omega))
        have ej : j = 64 * i + (j - 64 * i) := by omega
        rw [ej]
        exact word_eq_zero hw _ (by omega)
      · have e : wordScan c (fuel + 1) i = i * 64 + ctz64 (word c i) := by
          simp [wordScan, hi, hw]
        obtain ⟨b1, b2, b3⟩ := bsfScan64_spec hw (word_lt c i)
        have e2 : i * 64 + ctz64 (word c i) = 64 * i + bsfScan (word c i) 64 0 := by
          unfold ctz64
          omega
        rw [e, e2]
        refine ⟨fun j h1 h2 => ?_, Or.inr ⟨by omega, ?_⟩⟩
        · have ej : j = 64 * i + (j - 64 * i) := by omega
          have hlow := b3 (j - 64 * i) (by omega)
          rw [testBit_word] at hlow
          have hj : j - 64 * i < 64 := by omega
          rw [ej]
          simpa [hj] using hlow
        · rw [testBit_word] at b2
          simpa [b1] using b2
    · have e : wordScan c (fuel + 1) i = N := by
        simp [wordScan, hi]
      rw [e]
      have := numWords_mul_ge N
      exact IsFirstFrom.of_ge c (by omega)

theorem testBit_mask (m b : Nat) :
    (((2 ^ 64 - 1) <<< m) % 2 ^ 64).testBit b = (decide (b < 64) && decide (m ≤ b)) := by
  rw [Nat.testBit_mod_two_pow, Nat.testBit_shiftLeft, Nat.testBit_two_pow_sub_one]
  by_cases h1 : b < 64
  · by_cases h2 : m ≤ b
    · have h3 : b - m < 64 := by omega
      simp [h1, h2, h3]
    · simp [h1, h2]
  · simp [h1]

theorem _Find_next_eq {N : Nat} (c : Bitset N) (prev : Nat) :
    _Find_next c prev =
      if numWords N * 64 ≤ (prev + 1) % 2 ^ 64 then N
      else if word c ((prev + 1) % 2 ^ 64 / 64)
          &&& ((2 ^ 64 - 1) <<< ((prev + 1) % 2 ^ 64 % 64)) % 2 ^ 64 ≠ 0 then
        (prev + 1) % 2 ^ 64 / 64 * 64
          + ctz64 (word c ((prev + 1) % 2 ^ 64 / 64)
              &&& ((2 ^ 64 - 1) <<< ((prev + 1) % 2 ^ 64 % 64)) % 2 ^ 64)
      else wordScan c (numWords N - ((prev + 1) % 2 ^ 64 / 64 + 1))
          ((prev + 1) % 2 ^ 64 / 64 + 1) := rfl

theorem _Find_next_spec {N : Nat} (c : Bitset N) (prev : Nat) :
    IsFirstFrom c ((prev + 1) % 2 ^ 64) (_Find_next c prev) := by
  rw [_Find_next_eq]
  generalize (prev + 1) % 2 ^ 64 = p
  have hge := numWords_mul_ge N
  by_cases h1 : numWords N * 64 ≤ p
  · rw [if_pos h1]
    exact IsFirstFrom.of_ge c (by omega)
  · have hbit : ∀ b, (word c (p / 64) &&& ((2 ^ 64 - 1) <<< (p % 64)) % 2 ^ 64).testBit b
        = (decide (b < 64) && c.test (64 * (p / 64) + b) && decide (p % 64 ≤ b)) := by
      intro b
      rw [Nat.testBit_and, testBit_word, testBit_mask]
      cases decide (b < 64) <;> simp
    by_cases hw : word c (p / 64) &&& ((2 ^ 64 - 1) <<< (p % 64)) % 2 ^ 64 = 0
    · rw [if_neg h1, if_neg (not_not.mpr hw)]
      refine IsFirstFrom.extend (by omega) (fun j h2 h3 => ?_)
        (wordScan_spec c _ (p / 64 + 1) (Nat.le_refl _))
      have hb := hbit (j - 64 * (p / 64))
      rw [hw] at hb
      have ej : 64 * (p / 64) + (j - 64 * (p / 64)) = j := by omega
      have hj1 : j - 64 * (p / 64) < 64 := by omega
      have hj2 : p % 64 ≤ j - 64 * (p / 64) := by omega
      rw [ej] at hb
      simpa [hj1, hj2] using hb.symm
    · rw [if_neg h1, if_pos hw]
      have hlt : word c (p / 64) &&& ((2 ^ 64 - 1) <<< (p % 64)) % 2 ^ 64 < 2 ^ 64 :=
        Nat.lt_of_le_of_lt Nat.and_le_left (word_lt c _)
      obtain ⟨b1, b2, b3⟩ := bsfScan64_spec hw hlt
      unfold ctz64
      generalize bsfScan (word c (p / 64) &&& ((2 ^ 64 - 1) <<< (p % 64)) % 2 ^ 64) 64 0 = q
        at b1 b2 b3
      rw [hbit] at b2
      have b2a : c.test (64 * (p / 64) + q) = true ∧ p % 64 ≤ q := by
        simpa [b1] using b2
      have eq1 : p / 64 * 64 + q = 64 * (p / 64) + q := by omega
      rw [eq1]
      refine ⟨fun j h2 h3 => ?_, Or.inr ⟨by omega, b2a.1⟩⟩
      have hb := b3 (j - 64 * (p / 64)) (by omega)
      rw [hbit] at hb
      have ej : 64 * (p / 64) + (j - 64 * (p / 64)) = j := by omega
      have hj1 : j - 64 * (p / 64) < 64 := by omega
      have hj2 : p % 64 ≤ j - 64 * (p / 64) := by omega
      rw [ej] at hb
      simpa [hj1, hj2] using hb

theorem _Find_first_spec {N : Nat} (c : Bitset N) : IsFirstFrom c 0 (_Find_first c) :=
  wordScan_spec c (numWords N) 0 (by omega)

theorem bitset_find_first_spec {N : Nat} (b : Build) (c : Bitset N) :
    IsFirstFrom c 0 (bitset_find_first b c) := by
  unfold bitset_find_first
  split
  · exact _Find_first_spec c
  · exact linearScan_spec c N 0 (by omega)

/-- The value computed by `bitset_find_next` once its assertion is passed. -/
theorem bitset_find_next_spec {N : Nat} (b : Build) (c : Bitset N) {prev : Nat}
    (hprev : prev < N) :
    ∃ r, bitset_find_next b c prev = some r ∧ IsFirstFrom c ((prev + 1) % 2 ^ 64) r := by
  unfold bitset_find_next
  have h1 : (b.debug && !decide (prev < N)) = false := by simp [hprev]
  rw [h1]
  by_cases hg : b.gnu = true
  · exact ⟨_Find_next c prev, by simp [hg], _Find_next_spec c prev⟩
  · refine ⟨linearScan c (N - (prev + 1) % 2 ^ 64) ((prev + 1) % 2 ^ 64), by simp [hg], ?_⟩
    exact linearScan_spec c _ _ (Nat.le_refl _)

/-! ## Lemmas on the iteration -/

theorem succ_mod_of_lt {N prev : Nat} (hN : N < 2 ^ 64) (hprev : prev < N) :
    (prev + 1) % 2 ^ 64 = prev + 1 :=
  Nat.mod_eq_of_lt (by omega)

theorem bitset_find_first_eq {N : Nat} (b : Build) {c : Bitset N} {r : Nat}
    (h : IsFirstFrom c 0 r) : bitset_find_first b c = r :=
  IsFirstFrom.unique (bitset_find_first_spec b c) h

theorem bitset_find_next_eq {N : Nat} (hN : N < 2 ^ 64) (b : Build) {c : Bitset N}
    {prev r : Nat} (hprev : prev < N) (h : IsFirstFrom c (prev + 1) r) :
    bitset_find_next b c prev = some r := by
  obtain ⟨r2, e1, e2⟩ := bitset_find_next_spec b c hprev
  rw [succ_mod_of_lt hN hprev] at e2
  rw [e1, IsFirstFrom.unique e2 h]

theorem Bitset.test_ofList (N : Nat) (l : List Nat) (i : Nat) :
    (Bitset.ofList N l).test i = (decide (i < N) && l.contains i) := by
  by_cases h : i < N
  · simp [Bitset.test, Bitset.ofList, h]
  · simp [Bitset.test, h]

theorem isFirstFrom_example_3 {N : Nat} (h : 10 ≤ N) :
    IsFirstFrom (Bitset.ofList N [2, 5, 9]) 3 5 := by
  refine ⟨fun j h1 h2 => ?_, Or.inr ⟨by omega, ?_⟩⟩
  · rw [Bitset.test_ofList]
    have : j = 3 ∨ j = 4 := by omega
    rcases this with e | e <;> simp [e]
  · rw [Bitset.test_ofList]
    have : 5 < N := by omega
    simp [this]

theorem isFirstFrom_example_6 {N : Nat} (h : 10 ≤ N) :
    IsFirstFrom (Bitset.ofList N [2, 5, 9]) 6 9 := by
  refine ⟨fun j h1 h2 => ?_, Or.inr ⟨by omega, ?_⟩⟩
  · rw [Bitset.test_ofList]
    have : j = 6 ∨ j = 7 ∨ j = 8 := by omega
    rcases this with e | e | e <;> simp [e]
  · rw [Bitset.test_ofList]
    have : 9 < N := by omega
    simp [this]

theorem isFirstFrom_example_10 {N : Nat} :
    IsFirstFrom (Bitset.ofList N [2, 5, 9]) 10 N := by
  refine ⟨fun j h1 h2 => ?_, Or.inl rfl⟩
  rw [Bitset.test_ofList]
  have h2 : ¬ j = 2 := by omega
  have h5 : ¬ j = 5 := by omega
  have h9 : ¬ j = 9 := by omega
  simp [h2, h5, h9]

/-- On the assembly paths, that of powerpc64 with `out` outside `r0`, the
position of `ffs64` is at most the position of `fls64`, with equality on a word
with a single set bit. -/
theorem ffs64_le_fls64_asm {a : Arch} (ha : a ≠ Arch.portable)
    (hr : a ≠ Arch.powerpc64 true) {w : Nat} (h0 : w ≠ 0) (hlt : w < 2 ^ 64) (o1 o2 : Nat) :
    (ffs64 a w o1).2 ≤ (fls64 a w o2).2 ∧
      ((∃ k, w = 2 ^ k) → (ffs64 a w o1).2 = (fls64 a w o2).2) := by
  rw [ffs64_asm_eq ha hr h0 hlt, fls64_eq a hr h0 hlt]
  obtain ⟨_, b2, b3⟩ := bsfScan64_spec h0 hlt
  obtain ⟨_, c2, c3⟩ := bsrScan63_spec h0 hlt
  constructor
  · show bsfScan w 64 0 ≤ bsrScan w 63
    by_contra hgt
    have := c3 (bsfScan w 64 0) (by omega)
    rw [b2] at this
    cases this
  · intro hk
    obtain ⟨k, hk⟩ := hk
    show bsfScan w 64 0 = bsrScan w 63
    subst hk
    rw [Nat.testBit_two_pow] at b2 c2
    have e1 : k = bsfScan (2 ^ k) 64 0 := by simpa using b2
    have e2 : k = bsrScan (2 ^ k) 63 := by simpa using c2
    omega

/-! ## Main results -/

/-- On the x86_64 and aarch64 paths, and on the powerpc64 path with `out`
outside `r0`, `ffs64` of a non-zero 64-bit word returns true and writes a
position between 0 and 63 whose bit is set in the word, every bit below it
being clear. -/
theorem ffs64_lowest_set (a : Arch) (ha : a ≠ Arch.portable) (hr : a ≠ Arch.powerpc64 true)
    (w out : Nat) (h0 : w ≠ 0) (hlt : w < 2 ^ 64) :
    (ffs64 a w out).1 = true ∧ (ffs64 a w out).2 < 64 ∧
      w.testBit (ffs64 a w out).2 = true ∧
      ∀ j, j < (ffs64 a w out).2 → w.testBit j = false := by
  rw [ffs64_asm_eq ha hr h0 hlt]
  obtain ⟨b1, b2, b3⟩ := bsfScan64_spec h0 hlt
  exact ⟨rfl, b1, b2, b3⟩

/-- On the powerpc64 path with `out` in `r0`, `ffs64` of every non-zero 64-bit
word returns true and writes 63. -/
theorem ffs64_powerpc64_r0 (w out : Nat) (h0 : w ≠ 0) (hlt : w < 2 ^ 64) :
    ffs64 (Arch.powerpc64 true) w out = (true, 63) :=
  ffs64_powerpc64_r0_eq h0 hlt out

/-- On the powerpc64 path with `out` in `r0`, `fls64` of every non-zero 64-bit
word returns true and writes 63. -/
theorem fls64_powerpc64_r0 (w out : Nat) (h0 : w ≠ 0) (hlt : w < 2 ^ 64) :
    fls64 (Arch.powerpc64 true) w out = (true, 63) :=
  fls64_powerpc64_r0_eq h0 hlt out

/-- C1: on the powerpc64 path with `out` placed in `r0`, `ffs64` of the word 40
returns true and writes position 63, although bit 63 of 40 is clear; the lowest
set bit of 40 is bit 3, which the same path writes when `out` is in another
register, as do the x86_64 and aarch64 paths. -/
theorem C1_powerpc64_r0_ffs64_writes_63 :
    ffs64 (Arch.powerpc64 true) 40 0 = (true, 63) ∧ Nat.testBit 40 63 = false ∧
      ffs64 (Arch.powerpc64 false) 40 0 = (true, 3) ∧
      ffs64 Arch.x86_64 40 0 = (true, 3) ∧ ffs64 Arch.aarch64 40 0 = (true, 3) := by
  decide

/-- On every path but the powerpc64 path with `out` in `r0`, `fls64` of a
non-zero 64-bit word returns true and writes a position between 0 and 63 whose
bit is set in the word, every bit above it being clear. -/
theorem fls64_highest_set (a : Arch) (hr : a ≠ Arch.powerpc64 true) (w out : Nat)
    (h0 : w ≠ 0) (hlt : w < 2 ^ 64) :
    (fls64 a w out).1 = true ∧ (fls64 a w out).2 < 64 ∧
      w.testBit (fls64 a w out).2 = true ∧
      ∀ j, (fls64 a w out).2 < j → w.testBit j = false := by
  rw [fls64_eq a hr h0 hlt]
  obtain ⟨b1, b2, b3⟩ := bsrScan63_spec h0 hlt
  exact ⟨rfl, b1, b2, b3⟩

/-- C2: on the powerpc64 path with `out` placed in `r0`, `fls64` of the word 40
returns true and writes position 63, although bit 63 of 40 is clear; the
highest set bit of 40 is bit 5, which the same path writes when `out` is in
another register, as do the x86_64, aarch64 and portable paths. -/
theorem C2_powerpc64_r0_fls64_writes_63 :
    fls64 (Arch.powerpc64 true) 40 0 = (true, 63) ∧ Nat.testBit 40 63 = false ∧
      fls64 (Arch.powerpc64 false) 40 0 = (true, 5) ∧
      fls64 Arch.x86_64 40 0 = (true, 5) ∧ fls64 Arch.aarch64 40 0 = (true, 5) ∧
      fls64 Arch.portable 40 0 = (true, 5) := by
  decide

/-- C3: on every build path `ffs64` and `fls64` return false on the zero word,
and on any 64-bit word the flag of each is true exactly when the word is
non-zero. -/
theorem C3_flag_iff_nonzero (a : Arch) (w out : Nat) (hlt : w < 2 ^ 64) :
    (ffs64 a 0 out).1 = false ∧ (fls64 a 0 out).1 = false ∧
      ((ffs64 a w out).1 = true ↔ w ≠ 0) ∧ ((fls64 a w out).1 = true ↔ w ≠ 0) := by
  refine ⟨ffs64_zero_flag a out, fls64_zero_flag a out, ?_, ?_⟩
  · by_cases h0 : w = 0
    · subst h0
      simp [ffs64_zero_flag]
    · simp [h0, ffs64_flag a h0 hlt]
  · by_cases h0 : w = 0
    · subst h0
      simp [fls64_zero_flag]
    · simp [h0, fls64_flag a h0 hlt]

/-- Witness of C3 on the aarch64 path at the word 12. -/
theorem C3_flag_iff_nonzero_witness :
    (12 < 2 ^ 64) ∧
      ((ffs64 Arch.aarch64 0 7).1 = false ∧ (fls64 Arch.aarch64 0 7).1 = false ∧
        ((ffs64 Arch.aarch64 12 7).1 = true ↔ (12 : Nat) ≠ 0) ∧
        ((fls64 Arch.aarch64 12 7).1 = true ↔ (12 : Nat) ≠ 0)) :=
  ⟨by decide, C3_flag_iff_nonzero Arch.aarch64 12 7 (by decide)⟩

/-- C4: on the portable path the word 1, which has exactly one set bit, makes
both functions return true, with position 1 from `ffs64` and position 0 from
`fls64`: the first-set position is greater than the last-set position. -/
theorem C4_portable_first_exceeds_last :
    ffs64 Arch.portable 1 0 = (true, 1) ∧ fls64 Arch.portable 1 0 = (true, 0) ∧
      ¬ ((ffs64 Arch.portable 1 0).2 ≤ (fls64 Arch.portable 1 0).2) := by
  decide

/-- C5: on both builds `bitset_find_first` returns the smallest index whose
flag is set when there is one, and returns `N` exactly when no flag is set. -/
theorem C5_find_first_smallest (b : Build) {N : Nat} (c : Bitset N) :
    ((∃ i, c.test i = true) →
        bitset_find_first b c < N ∧ c.test (bitset_find_first b c) = true ∧
        ∀ j, j < bitset_find_first b c → c.test j = false) ∧
      (bitset_find_first b c = N ↔ ∀ i, c.test i = false) := by
  have h := bitset_find_first_spec b c
  constructor
  · intro hex
    obtain ⟨i, hi⟩ := hex
    have hiN := Bitset.test_lt hi
    rcases h.2 with e | ⟨_, ht⟩
    · have := h.1 i (Nat.zero_le _) (by omega)
      rw [hi] at this
      cases this
    · exact ⟨Bitset.test_lt ht, ht, fun j hj => h.1 j (Nat.zero_le _) hj⟩
  · constructor
    · intro e i
      by_cases hi : i < N
      · exact h.1 i (Nat.zero_le _) (by omega)
      · exact c.test_of_ge (Nat.le_of_not_lt hi)
    · intro hall
      rcases h.2 with e | ⟨_, ht⟩
      · exact e
      · rw [hall] at ht
        cases ht

/-- Witness of C5 on the fallback build for the set {2, 5, 9} of size 10, and on
the GNU build for the all-clear bitset of size 10. -/
theorem C5_find_first_smallest_witness :
    bitset_find_first ⟨false, true⟩ (Bitset.ofList 10 [2, 5, 9]) = 2 ∧
      bitset_find_first ⟨true, true⟩ (Bitset.ofList 10 []) = 10 ∧
      (bitset_find_first ⟨true, true⟩ (Bitset.ofList 10 []) = 10 ↔
        ∀ i, (Bitset.ofList 10 []).test i = false) :=
  ⟨by decide, by decide, (C5_find_first_smallest ⟨true, true⟩ (Bitset.ofList 10 [])).2⟩

/-- C6: on both builds, for `prev < N`, `bitset_find_next` returns the smallest
index above `prev` whose flag is set when there is one and `N` otherwise; a
bitset that differs from `c` at `prev` only gives the same result; and for the
set {2, 5, 9} with `N` at least 10 the results from 2, 5 and 9 are 5, 9
and `N`. -/
theorem C6_find_next_smallest_above (b : Build) {N : Nat} (hN : N < 2 ^ 64) (c : Bitset N)
    (prev : Nat) (hprev : prev < N) :
    ∃ r, bitset_find_next b c prev = some r ∧
      ((∃ i, prev < i ∧ c.test i = true) →
        prev < r ∧ r < N ∧ c.test r = true ∧
        ∀ j, prev < j → j < r → c.test j = false) ∧
      ((∀ i, prev < i → c.test i = false) → r = N) ∧
      (∀ c2 : Bitset N, (∀ i, i ≠ prev → c2.test i = c.test i) →
        bitset_find_next b c2 prev = some r) ∧
      (10 ≤ N →
        bitset_find_next b (Bitset.ofList N [2, 5, 9]) 2 = some 5 ∧
        bitset_find_next b (Bitset.ofList N [2, 5, 9]) 5 = some 9 ∧
        bitset_find_next b (Bitset.ofList N [2, 5, 9]) 9 = some N) := by
  obtain ⟨r, e1, e2⟩ := bitset_find_next_spec b c hprev
  rw [succ_mod_of_lt hN hprev] at e2
  refine ⟨r, e1, ?_, ?_, ?_, ?_⟩
  · intro hex
    obtain ⟨i, hi1, hi2⟩ := hex
    have hiN := Bitset.test_lt hi2
    rcases e2.2 with e | ⟨h1, ht⟩
    · have := e2.1 i (by omega) (by omega)
      rw [hi2] at this
      cases this
    · exact ⟨by omega, Bitset.test_lt ht, ht, fun j h2 h3 => e2.1 j (by omega) h3⟩
  · intro hall
    rcases e2.2 with e | ⟨h1, ht⟩
    · exact e
    · rw [hall r (by omega)] at ht
      cases ht
  · intro c2 hagree
    apply bitset_find_next_eq hN b hprev
    refine ⟨fun j h1 h2 => ?_, ?_⟩
    · rw [hagree j (by omega)]
      exact e2.1 j h1 h2
    · rcases e2.2 with e | ⟨h1, ht⟩
      · exact Or.inl e
      · refine Or.inr ⟨h1, ?_⟩
        rw [hagree r (by omega)]
        exact ht
  · intro h10
    exact ⟨bitset_find_next_eq hN b (by omega) (isFirstFrom_example_3 h10),
      bitset_find_next_eq hN b (by omega) (isFirstFrom_example_6 h10),
      bitset_find_next_eq hN b (by omega) isFirstFrom_example_10⟩

/-- Witness of C6 on the fallback build for the set {2, 5, 9} of size 12 and
`prev = 5`. -/
theorem C6_find_next_smallest_above_witness :
    (12 < 2 ^ 64 ∧ 5 < 12) ∧
      bitset_find_next ⟨false, true⟩ (Bitset.ofList 12 [2, 5, 9]) 2 = some 5 ∧
      bitset_find_next ⟨false, true⟩ (Bitset.ofList 12 [2, 5, 9]) 5 = some 9 ∧
      bitset_find_next ⟨false, true⟩ (Bitset.ofList 12 [2, 5, 9]) 9 = some 12 ∧
      ∃ r, bitset_find_next ⟨false, true⟩ (Bitset.ofList 12 [2, 5, 9]) 5 = some r ∧
        ((∃ i, 5 < i ∧ (Bitset.ofList 12 [2, 5, 9]).test i = true) →
          5 < r ∧ r < 12 ∧ (Bitset.ofList 12 [2, 5, 9]).test r = true ∧
          ∀ j, 5 < j → j < r → (Bitset.ofList 12 [2, 5, 9]).test j = false) ∧
        ((∀ i, 5 < i → (Bitset.ofList 12 [2, 5, 9]).test i = false) → r = 12) ∧
        (∀ c2 : Bitset 12,
          (∀ i, i ≠ 5 → c2.test i = (Bitset.ofList 12 [2, 5, 9]).test i) →
          bitset_find_next ⟨false, true⟩ c2 5 = some r) ∧
        (10 ≤ 12 →
          bitset_find_next ⟨false, true⟩ (Bitset.ofList 12 [2, 5, 9]) 2 = some 5 ∧
          bitset_find_next ⟨false, true⟩ (Bitset.ofList 12 [2, 5, 9]) 5 = some 9 ∧
          bitset_find_next ⟨false, true⟩ (Bitset.ofList 12 [2, 5, 9]) 9 = some 12) :=
  ⟨⟨by decide, by decide⟩, by decide, by decide, by decide,
    C6_find_next_smallest_above ⟨false, true⟩ (by decide) (Bitset.ofList 12 [2, 5, 9]) 5
      (by decide)⟩

/-- C8: the portable path of `ffs64` is not identical to the assembly paths: on
the word 1 it returns position 1, where the x86_64 and aarch64 paths, and the
powerpc64 path with `out` outside `r0`, return position 0. -/
theorem C8_portable_ffs64_is_one_based :
    ffs64 Arch.portable 1 0 = (true, 1) ∧ ffs64 Arch.x86_64 1 0 = (true, 0) ∧
      ffs64 Arch.aarch64 1 0 = (true, 0) ∧
      ffs64 (Arch.powerpc64 false) 1 0 = (true, 0) := by
  decide

/-- C9: for `prev < N`, the word-at-a-time scans `_Find_first` and `_Find_next`
of the GNU build return the same index as the linear loops of the fallback
build. -/
theorem C9_accelerated_eq_linear (d : Bool) {N : Nat} (c : Bitset N) (prev : Nat)
    (hprev : prev < N) :
    _Find_first c = linearScan c N 0 ∧
      _Find_next c prev = linearScan c (N - (prev + 1) % 2 ^ 64) ((prev + 1) % 2 ^ 64) ∧
      bitset_find_first ⟨true, d⟩ c = bitset_find_first ⟨false, d⟩ c ∧
      bitset_find_next ⟨true, d⟩ c prev = bitset_find_next ⟨false, d⟩ c prev := by
  have h1 : _Find_first c = linearScan c N 0 :=
    IsFirstFrom.unique (_Find_first_spec c) (linearScan_spec c N 0 (by omega))
  have h2 : _Find_next c prev
      = linearScan c (N - (prev + 1) % 2 ^ 64) ((prev + 1) % 2 ^ 64) :=
    IsFirstFrom.unique (_Find_next_spec c prev) (linearScan_spec c _ _ (Nat.le_refl _))
  refine ⟨h1, h2, ?_, ?_⟩
  · simp [bitset_find_first, h1]
  · simp only [bitset_find_next, h2]
    simp

/-- Witness of C9 for a bitset of size 200 spanning four words, from
`prev = 64`. -/
theorem C9_accelerated_eq_linear_witness :
    (64 < 200) ∧
      _Find_next (Bitset.ofList 200 [2, 5, 9, 63, 64, 127, 130, 199]) 64 = 127 ∧
      bitset_find_next ⟨true, true⟩ (Bitset.ofList 200 [2, 5, 9, 63, 64, 127, 130, 199]) 64
        = bitset_find_next ⟨false, true⟩
            (Bitset.ofList 200 [2, 5, 9, 63, 64, 127, 130, 199]) 64 :=
  ⟨by decide, by decide,
    (C9_accelerated_eq_linear true (Bitset.ofList 200 [2, 5, 9, 63, 64, 127, 130, 199]) 64
      (by decide)).2.2.2⟩

/-- C10: with assertions compiled in, on both builds, `bitset_find_next` fails
its assertion exactly when `prev` is at least `N`, and for `prev < N` it returns
an index, which is at most `N`. -/
theorem C10_find_next_assertion (g : Bool) {N : Nat} (c : Bitset N) (prev : Nat) :
    (bitset_find_next ⟨g, true⟩ c prev = none ↔ N ≤ prev) ∧
      (prev < N → ∃ r, bitset_find_next ⟨g, true⟩ c prev = some r ∧ r ≤ N) := by
  constructor
  · constructor
    · intro h
      by_contra hlt
      obtain ⟨r, e1, _⟩ := bitset_find_next_spec ⟨g, true⟩ c (Nat.lt_of_not_le hlt)
      rw [e1] at h
      cases h
    · intro h
      have hn : ¬ prev < N := by omega
      simp [bitset_find_next, hn]
  · intro hlt
    obtain ⟨r, e1, e2⟩ := bitset_find_next_spec ⟨g, true⟩ c hlt
    exact ⟨r, e1, e2.le⟩

/-- Witness of C10 for the set {2, 5, 9} of size 10: the call with `prev = 10`
fails its assertion, the call with `prev = 9` returns 10. -/
theorem C10_find_next_assertion_witness :
    bitset_find_next ⟨false, true⟩ (Bitset.ofList 10 [2, 5, 9]) 10 = none ∧
      bitset_find_next ⟨false, true⟩ (Bitset.ofList 10 [2, 5, 9]) 9 = some 10 ∧
      (bitset_find_next ⟨false, true⟩ (Bitset.ofList 10 [2, 5, 9]) 10 = none ↔ 10 ≤ 10) :=
  ⟨by decide, by decide,
    (C10_find_next_assertion false (Bitset.ofList 10 [2, 5, 9]) 10).1⟩

/-! ## Lemmas for the results on termination, safety and counting -/

theorem toSigned64_fls64_aarch64 {w : Nat} (hlt : w < 2 ^ 64) :
    toSigned64 (add64 (neg64 (clz64 w)) 63) = 63 - (clz64 w : Int) := by
  by_cases h0 : w = 0
  · subst h0
    rw [clz64_zero, add64_neg64_64]
    decide
  · have c1 := (clz64_spec h0 hlt).1
    rw [add64_neg64 c1]
    have h63 : 63 - clz64 w < 2 ^ 63 := by
      have : (64 : Nat) ≤ 2 ^ 63 := by decide
      omega
    unfold toSigned64
    rw [if_pos h63]
    omega

theorem clz64_eq_64_iff {w : Nat} (hlt : w < 2 ^ 64) : clz64 w = 64 ↔ w = 0 := by
  constructor
  · intro h
    by_contra h0
    have := (clz64_spec h0 hlt).1
    omega
  · intro h
    rw [h]
    exact clz64_zero

theorem bsrScan_two_pow {k : Nat} (hk : k < 64) : bsrScan (2 ^ k) 63 = k := by
  have hlt : 2 ^ k < 2 ^ 64 := Nat.pow_lt_pow_right (by decide) hk
  have h0 : 2 ^ k ≠ 0 := Nat.ne_of_gt (Nat.two_pow_pos k)
  obtain ⟨_, h2, _⟩ := bsrScan63_spec h0 hlt
  rw [Nat.testBit_two_pow] at h2
  have h3 : k = bsrScan (2 ^ k) 63 := by simpa using h2
  exact h3.symm

/-- C12: on the aarch64 path of `fls64`, for every 64-bit input, the value left
in `out`, read as a signed 64-bit integer, is 63 minus the count of leading
zeros; it is negative exactly when the input is zero, and is then -1; the flag
returned is the condition PL on that value, and equals `input != 0`. -/
theorem C12_fls64_aarch64_sign (w out : Nat) (hlt : w < 2 ^ 64) :
    toSigned64 (fls64 Arch.aarch64 w out).2 = 63 - (clz64 w : Int) ∧
      (toSigned64 (fls64 Arch.aarch64 w out).2 < 0 ↔ w = 0) ∧
      (w = 0 → toSigned64 (fls64 Arch.aarch64 w out).2 = -1) ∧
      (fls64 Arch.aarch64 w out).1 = decide (0 ≤ toSigned64 (fls64 Arch.aarch64 w out).2) ∧
      (fls64 Arch.aarch64 w out).1 = decide (w ≠ 0) := by
  have hs : toSigned64 (fls64 Arch.aarch64 w out).2 = 63 - (clz64 w : Int) :=
    toSigned64_fls64_aarch64 hlt
  have hc := clz64_le w
  have hiff := clz64_eq_64_iff hlt
  have hneg : toSigned64 (fls64 Arch.aarch64 w out).2 < 0 ↔ w = 0 := by
    rw [hs]
    constructor
    · intro h
      exact hiff.1 (by omega)
    · intro h
      have := hiff.2 h
      omega
  have hflag : (fls64 Arch.aarch64 w out).1 = decide (w ≠ 0) := by
    by_cases h0 : w = 0
    · subst h0
      simp [fls64_zero_flag]
    · rw [fls64_eq Arch.aarch64 (by decide) h0 hlt]
      simp [h0]
  refine ⟨hs, hneg, ?_, ?_, hflag⟩
  · intro h
    have := hiff.2 h
    rw [hs]
    omega
  · rw [hflag, decide_eq_decide]
    constructor
    · intro h0 
      by_contra hlt0
      exact h0 (hneg.1 (by omega))
    · intro hge h0
      have := hneg.2 h0
      omega

/-- Witness of C12 at the input 0, where the signed value is -1 and the flag is
false. -/
theorem C12_fls64_aarch64_sign_witness :
    (0 < 2 ^ 64) ∧ fls64 Arch.aarch64 0 0 = (false, 2 ^ 64 - 1) ∧
      toSigned64 (fls64 Arch.aarch64 0 0).2 = -1 :=
  ⟨by decide, by decide, (C12_fls64_aarch64_sign 0 0 (by decide)).2.2.1 rfl⟩

/-- For every non-zero 64-bit word `w`, the position written by `ffs64` on the
x86_64 and aarch64 paths and on the powerpc64 path with `out` outside `r0` is
the position written by `fls64`, on any path but powerpc64 with `out` in `r0`,
for `w & -w` with the negation taken modulo `2 ^ 64`; it is 63 minus the count
of leading zeros of `w & -w`, and that is the index of the lowest set bit of
`w`. -/
theorem ffs64_eq_fls64_lowbit (a : Arch) (ha : a ≠ Arch.portable)
    (hr : a ≠ Arch.powerpc64 true) (a2 : Arch) (hr2 : a2 ≠ Arch.powerpc64 true)
    (w o1 o2 : Nat) (h0 : w ≠ 0) (hlt : w < 2 ^ 64) :
    (ffs64 a w o1).2 = (fls64 a2 (w &&& neg64 w) o2).2 ∧
      (ffs64 a w o1).2 = 63 - clz64 (w &&& neg64 w) ∧
      w.testBit (63 - clz64 (w &&& neg64 w)) = true ∧
      ∀ j, j < 63 - clz64 (w &&& neg64 w) → w.testBit j = false := by
  obtain ⟨b1, b2, b3⟩ := bsfScan64_spec h0 hlt
  have hland := land_neg64_of_lowest hlt b2 b3
  have hpow0 : 2 ^ bsfScan w 64 0 ≠ 0 := Nat.ne_of_gt (Nat.two_pow_pos _)
  have hpowlt : 2 ^ bsfScan w 64 0 < 2 ^ 64 := Nat.pow_lt_pow_right (by decide) b1
  have hclz : 63 - clz64 (w &&& neg64 w) = bsfScan w 64 0 := by
    rw [hland, clz64_two_pow b1]
    omega
  rw [ffs64_asm_eq ha hr h0 hlt, hclz, hland, fls64_eq a2 hr2 hpow0 hpowlt,
    bsrScan_two_pow b1]
  exact ⟨rfl, rfl, b2, b3⟩

/-- For every non-zero 64-bit word `w`, 63 minus the count of leading zeros of
`w & -w` is the index of the lowest set bit of `w`. -/
theorem lowbit_index (w : Nat) (h0 : w ≠ 0) (hlt : w < 2 ^ 64) :
    w.testBit (63 - clz64 (w &&& neg64 w)) = true ∧
      ∀ j, j < 63 - clz64 (w &&& neg64 w) → w.testBit j = false := by
  obtain ⟨b1, b2, b3⟩ := bsfScan64_spec h0 hlt
  have hclz : 63 - clz64 (w &&& neg64 w) = bsfScan w 64 0 := by
    rw [land_neg64_of_lowest hlt b2 b3, clz64_two_pow b1]
    omega
  rw [hclz]
  exact ⟨b2, b3⟩

/-- C13: on the powerpc64 path with `out` placed in `r0`, `ffs64` of the word
40 writes position 63, whereas `40 & -40` is 8, 63 minus its count of leading
zeros is 3, the index of the lowest set bit of 40, and 3 is the position that
`fls64` writes for 8 on the powerpc64 path with `out` in another register. -/
theorem C13_powerpc64_r0_ffs64_ne_lowbit :
    ffs64 (Arch.powerpc64 true) 40 0 = (true, 63) ∧ 40 &&& neg64 40 = 8 ∧
      63 - clz64 (40 &&& neg64 40) = 3 ∧
      fls64 (Arch.powerpc64 false) (40 &&& neg64 40) 0 = (true, 3) ∧
      (ffs64 (Arch.powerpc64 true) 40 0).2
        ≠ (fls64 (Arch.powerpc64 false) (40 &&& neg64 40) 0).2 := by
  decide

/-- On every path but the powerpc64 path with `out` in `r0`, for every non-zero
64-bit word `w`, the position `pos` written by `fls64` satisfies
`2 ^ pos ≤ w < 2 ^ (pos + 1)`. -/
theorem fls64_log2 (a : Arch) (hr : a ≠ Arch.powerpc64 true) (w out : Nat) (h0 : w ≠ 0)
    (hlt : w < 2 ^ 64) :
    2 ^ (fls64 a w out).2 ≤ w ∧ w < 2 ^ ((fls64 a w out).2 + 1) := by
  rw [fls64_eq a hr h0 hlt]
  obtain ⟨_, b2, b3⟩ := bsrScan63_spec h0 hlt
  exact ⟨Nat.testBit_implies_ge b2,
    Nat.lt_pow_two_of_testBit w (fun j hj => b3 j (by omega))⟩

/-- C14: on the powerpc64 path with `out` placed in `r0`, `fls64` of the word
40 writes position 63, and `2 ^ 63 ≤ 40` fails; with `out` in another register
the same path writes 5, and `2 ^ 5 ≤ 40 < 2 ^ 6`. -/
theorem C14_powerpc64_r0_fls64_not_log2 :
    fls64 (Arch.powerpc64 true) 40 0 = (true, 63) ∧
      ¬ (2 ^ (fls64 (Arch.powerpc64 true) 40 0).2 ≤ 40) ∧
      fls64 (Arch.powerpc64 false) 40 0 = (true, 5) ∧
      (2 ^ (fls64 (Arch.powerpc64 false) 40 0).2 ≤ 40 ∧
        40 < 2 ^ ((fls64 (Arch.powerpc64 false) 40 0).2 + 1)) := by
  decide

/-- C16: on the fallback build without assertions, `bitset_find_next` at
`prev = 2 ^ 64 - 1` returns what `bitset_find_first` returns, and at every
`prev` with `N ≤ prev < 2 ^ 64 - 1` it returns `N`. -/
theorem C16_find_next_wraps {N : Nat} (c : Bitset N) (prev : Nat) (h1 : N ≤ prev)
    (h2 : prev < 2 ^ 64 - 1) :
    bitset_find_next ⟨false, false⟩ c (2 ^ 64 - 1)
        = some (bitset_find_first ⟨false, false⟩ c) ∧
      bitset_find_next ⟨false, false⟩ c prev = some N := by
  constructor
  · simp [bitset_find_next, bitset_find_first]
  · have e1 : (prev + 1) % 2 ^ 64 = prev + 1 := Nat.mod_eq_of_lt (by omega)
    have e2 : N - (prev + 1) = 0 := by omega
    simp only [bitset_find_next, e1, e2]
    simp [linearScan]

/-- Witness of C16 for the set {2, 5, 9} of size 10: from `2 ^ 64 - 1` the
result is 2, the first set index, and from 12345 it is 10. -/
theorem C16_find_next_wraps_witness :
    (10 ≤ 12345 ∧ 12345 < 2 ^ 64 - 1) ∧
      bitset_find_next ⟨false, false⟩ (Bitset.ofList 10 [2, 5, 9]) (2 ^ 64 - 1) = some 2 ∧
      (bitset_find_next ⟨false, false⟩ (Bitset.ofList 10 [2, 5, 9]) (2 ^ 64 - 1)
          = some (bitset_find_first ⟨false, false⟩ (Bitset.ofList 10 [2, 5, 9])) ∧
        bitset_find_next ⟨false, false⟩ (Bitset.ofList 10 [2, 5, 9]) 12345 = some 10) :=
  ⟨⟨by decide, by decide⟩, by decide,
    C16_find_next_wraps (Bitset.ofList 10 [2, 5, 9]) 12345 (by decide) (by decide)⟩

end HPHP
